import Mathlib

/-!
Shallow embedding of `src/localize_strings.py` (Xcode String Catalog
Localizer).

Python strings are modelled as `String` / `List Char`; Python dicts as
insertion-ordered association lists (`List (key × value)`) with the
update discipline of CPython dicts (assignment to an existing key keeps
its position, a fresh key is appended at the end, `json.dump` serializes
in that order, so equality of these lists models byte-identical
serialization).  The OpenAI call inside `translate_batch` — everything
in its `try` block up to and including extracting and stripping
`response.choices[0].message.content` — is modelled as an opaque
collaborator function `List String → String → Option String` taking the
batch and the human-readable language name and returning the raw
response text; `none` stands for any raised exception (timeout, API
error, malformed response object).  `time.sleep`, logging and progress
output are console effects with no influence on the data flow and are
dropped.
-/

/-- Characters stripped by Python `str.strip()`: ASCII whitespace
(space, tab, newline, carriage return, vertical tab, form feed).  All
keys and responses appearing in concrete theorems below are ASCII. -/
def isPySpace (c : Char) : Bool :=
  c = ' ' || c = '\t' || c = '\n' || c = '\r' || c = Char.ofNat 11 || c = Char.ofNat 12

/-- Python `str.strip()` on a character list. -/
def stripChars (l : List Char) : List Char :=
  ((l.dropWhile isPySpace).reverse.dropWhile isPySpace).reverse

/-- Python `str.strip()`. -/
def pyStrip (s : String) : String :=
  String.mk (stripChars s.toList)

/-- Python `str.lower()` (ASCII). -/
def pyLower (s : String) : String :=
  String.mk (s.toList.map Char.toLower)

/-- Python `str.split('\n')`: split at every newline, keeping empty
pieces. -/
def splitOnNl : List Char → List (List Char)
  | [] => [[]]
  | c :: rest =>
    if c = '\n' then [] :: splitOnNl rest
    else
      match splitOnNl rest with
      | [] => [[c]]
      | a :: as => (c :: a) :: as

/-- First occurrence of the substring `sep`: `some (before, after)` when
`sep` occurs in the list, splitting around its first occurrence. -/
def subAt? (sep : List Char) : List Char → Option (List Char × List Char)
  | [] => if sep.isEmpty then some ([], []) else none
  | c :: rest =>
    if sep.isPrefixOf (c :: rest) then some ([], (c :: rest).drop sep.length)
    else
      match subAt? sep rest with
      | some (a, b) => some (c :: a, b)
      | none => none

/-- Python substring containment `sep in l`. -/
def containsSub (sep l : List Char) : Bool :=
  (subAt? sep l).isSome

/-- Python `s.split(sep, 1)` (maxsplit 1). -/
def pySplit1 (sep : List Char) (l : List Char) : List (List Char) :=
  match subAt? sep l with
  | some (a, b) => [a, b]
  | none => [l]

/-- The part of the list after the first occurrence of `sep` (the second
part of `s.split(sep, 1)` when `sep` occurs). -/
def subAfter (sep l : List Char) : List Char :=
  match subAt? sep l with
  | some (_, b) => b
  | none => []

/-- Lookup in an insertion-ordered Python dict. -/
def dictGet? {α : Type} (d : List (String × α)) (k : String) : Option α :=
  (d.find? (fun p => p.1 == k)).map Prod.snd

/-- Python `k in d` for a dict. -/
def dictContains {α : Type} (d : List (String × α)) (k : String) : Bool :=
  d.any (fun p => p.1 == k)

/-- Python `d[k] = v`: an existing key keeps its position, a fresh key is
appended at the end. -/
def dictSet {α : Type} (d : List (String × α)) (k : String) (v : α) : List (String × α) :=
  if dictContains d k then d.map (fun p => if p.1 == k then (p.1, v) else p)
  else d ++ [(k, v)]

/-- Repeated `d[k] = v` assignments, in order. -/
def dictSetAll {α : Type} (d : List (String × α)) (ps : List (String × α)) : List (String × α) :=
  ps.foldl (fun m p => dictSet m p.1 p.2) d

/-- Python `d[k].mutate-in-place`: apply `f` to the value stored at `k`
(a no-op on keys that are absent; the program only ever does this for
keys known to be present). -/
def dictModify {α : Type} (d : List (String × α)) (k : String) (f : α → α) : List (String × α) :=
  d.map (fun p => if p.1 == k then (p.1, f p.2) else p)

/-- The `stringUnit` object written by the merge:
`{"state": ..., "value": ...}`. -/
structure StringUnit where
  state : String
  value : String
deriving DecidableEq, Repr

/-- One localization object: `{"stringUnit": {...}}`. -/
structure LocValue where
  stringUnit : StringUnit
deriving DecidableEq, Repr

/-- One value of the top-level `strings` dict.  `localizations` is the
optional `"localizations"` field (locale code → localization);
`extra` stands for every other JSON field of the entry (such as
`"extractionState"` or `"comment"`), which the program never reads or
writes. -/
structure Entry where
  localizations : Option (List (String × LocValue)) := none
  extra : List (String × String) := []
deriving DecidableEq, Repr

/-- The top-level `strings` dict of the catalog. -/
abbrev Catalog := List (String × Entry)

/-- The `localizations` dict of an entry, `[]` when the field is absent
(lookups into it then find nothing, matching Python's short-circuit
`'localizations' in value and lang_code in value['localizations']`). -/
def locsOf (e : Entry) : List (String × LocValue) :=
  match e.localizations with
  | some m => m
  | none => []

/-- LocValue stored for `(key, code)`:
`data['strings'][k]['localizations'][code]` when present. -/
def lookupLoc (cat : Catalog) (k code : String) : Option LocValue :=
  (dictGet? cat k).bind (fun e => dictGet? (locsOf e) code)

/-- Body of the response-parsing loop of `translate_batch`
(src/localize_strings.py lines 143-153) for one non-empty stripped line:
`some t` exactly when a translation is appended for this line.  The
`none` fall-through models the `if len(parts) == 2` guards failing (they
never do, since `split` at a separator known to occur yields two
parts). -/
def lineStep (line : List Char) : Option (List Char) :=
  if line.contains '|' then
    match pySplit1 ['|'] line with
    | [_, p] => some (stripChars p)
    | _ => none
  else if containsSub ['.', ' '] line then
    match pySplit1 ['.', ' '] line with
    | [_, p] => some (stripChars p)
    | _ => none
  else some line

/-- Parsing loop of `translate_batch` (lines 138-153): split the
(already stripped) response text into lines, strip each, skip empty
lines, apply the separator ladder of `lineStep`. -/
def parseTranslations (translated_text : String) : List String :=
  ((splitOnNl translated_text.toList).filterMap (fun raw =>
    let line := stripChars raw
    if line.isEmpty then none else lineStep line)).map String.mk

/-- Fuel-indexed form of the padding loop
`while len(translations) < len(texts): translations.append(texts[len(translations)])`
(lines 156-157).  Each iteration grows `translations` by one and the
loop stops as soon as the lengths agree, so `texts.length` rounds of
fuel always suffice. -/
def padGo (texts : List String) : Nat → List String → List String
  | 0, translations => translations
  | n + 1, translations =>
    if h : translations.length < texts.length then
      padGo texts n (translations ++ [texts.get ⟨translations.length, h⟩])
    else translations

/-- Response-reconciliation step of `translate_batch` (lines 138-163):
parse the stripped response text, pad missing trailing positions with
the source strings, truncate to the batch length. -/
def reconcile (translated_text : String) (texts : List String) : List String :=
  let translations := parseTranslations translated_text
  (padGo texts texts.length translations).take texts.length

/-- `translate_batch` (lines 103-167) with the OpenAI call abstracted as
`collab`.  The unused `target_lang` parameter of the Python function and
the progress-printing parameters are dropped (they only affect console
output).  The `except` clause returns the original `texts`. -/
def translate_batch (collab : List String → String → Option String)
    (texts : List String) (lang_name : String) : List String :=
  if texts.isEmpty then []
  else
    match collab texts lang_name with
    | some content => reconcile (pyStrip content) texts
    | none => texts

/-- One item of the pending-key filter of `translate_language`
(lines 176-182): `some key` exactly when the key is appended to
`strings_to_translate`.  In the JSON model every value of the `strings`
dict is an object, so `isinstance(value, dict)` is always true. -/
def pendStep (lang_code : String) (kv : String × Entry) : Option String :=
  if pyStrip kv.1 = "" then none
  else
    match kv.2.localizations with
    | some m => if dictContains m lang_code then none else some kv.1
    | none => some kv.1

/-- The Diff Engine: the `strings_to_translate` list computed at the
start of `translate_language` (lines 174-182), in catalog iteration
order. -/
def pendingKeys (cat : Catalog) (lang_code : String) : List String :=
  cat.filterMap (pendStep lang_code)

/-- The batching loop of `translate_language` (lines 195-237): `batch`
and `batch_keys` always hold the same list in the source (both append
`key` and both are reset together), so a single accumulator models
them.  A full batch of 100 is flushed inside the loop; the remainder is
flushed after it.  Each flush stores `zip(batch_keys, translations)`
into the per-language dict. -/
def batchLoop (collab : List String → String → Option String) (lang_name : String) :
    List String → List String → List (String × String) → List (String × String)
  | [], batch, acc =>
    if batch.isEmpty then acc
    else dictSetAll acc (batch.zip (translate_batch collab batch lang_name))
  | k :: rest, batch, acc =>
    let batch2 := batch ++ [k]
    if batch2.length ≥ 100 then
      batchLoop collab lang_name rest [] (dictSetAll acc (batch2.zip (translate_batch collab batch2 lang_name)))
    else batchLoop collab lang_name rest batch2 acc

/-- `translate_language` (lines 170-245), reduced to its data content:
the returned `language_translations` dict (the count and duration in the
returned tuple are derived observability data). -/
def translate_language (collab : List String → String → Option String)
    (data : Catalog) (lang_code lang_name : String) : List (String × String) :=
  batchLoop collab lang_name (pendingKeys data lang_code) [] []

/-- The merge of one translated pair (lines 308-317 and 326-335):
`data['strings'][key]['localizations'][lang_code] = {"stringUnit": {"state": "translated", "value": translation}}`,
creating the `localizations` dict when absent. -/
def setLoc (e : Entry) (lang_code translation : String) : Entry :=
  { e with localizations := some (dictSet (locsOf e) lang_code ⟨⟨"translated", translation⟩⟩) }

/-- Merge one `(key, translation)` pair into the catalog. -/
def applyOne (cat : Catalog) (lang_code k translation : String) : Catalog :=
  dictModify cat k (fun e => setLoc e lang_code translation)

/-- Merge a whole `PipelineResult` map for one locale, in dict iteration
order (lines 307-317 / 326-335). -/
def applyTranslations (cat : Catalog) (lang_code : String) (ts : List (String × String)) : Catalog :=
  ts.foldl (fun c p => applyOne c lang_code p.1 p.2) cat

/-- Shared shape of both merge phases: fold the per-locale merge over a
list of `(lang_code, lang_name)` pairs, where `F` supplies each locale's
translations dict from the catalog state at merge time. -/
def mergeGo (F : Catalog → String × String → List (String × String)) :
    List (String × String) → Catalog → Catalog
  | [], c => c
  | p :: rest, c => mergeGo F rest (applyTranslations c p.1 (F c p))

/-- Sequential mode of `localize_xcstrings` (lines 319-335): each
pipeline runs against the current catalog and its result is merged
before the next pipeline starts, in locale-table order. -/
def localizeSeq (collab : List String → String → Option String)
    (languages : List (String × String)) (cat : Catalog) : Catalog :=
  mergeGo (fun c p => translate_language collab c p.1 p.2) languages cat

/-- Parallel mode of `localize_xcstrings` (lines 276-317): every
pipeline reads the original catalog (no merge happens while any pipeline
runs), results are collected in completion order `order` (a permutation
of the language table determined by thread scheduling) and merged in
that order on the collector thread. -/
def localizePar (collab : List String → String → Option String)
    (cat0 : Catalog) (order : List (String × String)) (cat : Catalog) : Catalog :=
  mergeGo (fun _ p => translate_language collab cat0 p.1 p.2) order cat

/-- The loaded input file: `strings` is the top-level `"strings"` field
when present. -/
structure RawFile where
  strings : Option Catalog

/-- Observable outcome of a `main()` run: `exited c` for `sys.exit(c)`,
`finished w` for falling off the end of `main` (process exit status 0),
with `w` the catalog written to the output file (`none` when nothing was
written). -/
inductive RunResult where
  | exited (code : Nat)
  | finished (written : Option Catalog)
deriving DecidableEq, Repr

/-- `localize_xcstrings` (lines 248-338) with the collaborator
abstracted: returns the catalog written to the output file, or `none`
when the early `return` for a catalog lacking the `"strings"` field is
taken (then no pipeline starts and nothing is written).  `order` is the
completion order of the parallel mode. -/
def localize_xcstrings (collab : List String → String → Option String)
    (languages order : List (String × String)) (raw : RawFile) (parallel : Bool) : Option Catalog :=
  match raw.strings with
  | none => none
  | some cat =>
    some (if parallel then localizePar collab cat order cat else localizeSeq collab languages cat)

/-- Process environment seen by `main()`: the `OPENAI_API_KEY` variable,
the input file (`none` when it does not exist on disk), and the reply
typed at the confirmation prompt. -/
structure Env where
  api_key : Option String
  input_file : Option RawFile
  confirm : String

/-- `main()` (lines 369-431): missing credential and missing input file
call `sys.exit(1)`; a reply other than `y` calls `sys.exit(0)`;
otherwise `localize_xcstrings` runs (parallel mode, default arguments)
and `main` then prints the next-steps text and returns normally. -/
def pyMain (collab : List String → String → Option String)
    (languages order : List (String × String)) (env : Env) : RunResult :=
  match env.api_key with
  | none => RunResult.exited 1
  | some _ =>
    match env.input_file with
    | none => RunResult.exited 1
    | some raw =>
      if pyStrip (pyLower env.confirm) ≠ "y" then RunResult.exited 0
      else RunResult.finished (localize_xcstrings collab languages order raw true)

/-- Spec-side Diff Engine, following §4.1 of the spec as amended: the
keys of the catalog, in catalog iteration order, whose stripped key is
non-empty and whose entry has no localization for the locale (or no
localizations map at all). -/
def hasLocale (e : Entry) (code : String) : Bool :=
  match e.localizations with
  | some m => dictContains m code
  | none => false

/-- Spec-side Diff Engine result (see `hasLocale`). -/
def diffSpec (cat : Catalog) (code : String) : List String :=
  (cat.filter (fun kv => !(pyStrip kv.1 == "") && !(hasLocale kv.2 code))).map Prod.fst

/-- A deterministic collaborator stub that always fails (raises). -/
def collabFail : List String → String → Option String := fun _ _ => none

/-! Lemmas about the reconciler. -/

theorem padGo_eq (texts : List String) :
    ∀ (fuel : Nat) (ts : List String), texts.length ≤ ts.length + fuel →
      padGo texts fuel ts = ts ++ texts.drop ts.length := by
  intro fuel
  induction fuel with
  | zero =>
    intro ts h
    rw [Nat.add_zero] at h
    simp [padGo, List.drop_eq_nil_of_le h]
  | succ n ih =>
    intro ts h
    unfold padGo
    by_cases h2 : ts.length < texts.length
    · rw [dif_pos h2, ih]
      · rw [List.append_assoc]
        congr 1
        rw [List.length_append, List.length_singleton,
          List.drop_eq_getElem_cons h2, List.get_eq_getElem]
        rfl
      · rw [List.length_append, List.length_singleton]
        omega
    · rw [dif_neg h2]
      have h3 : texts.length ≤ ts.length := Nat.le_of_not_lt h2
      simp [List.drop_eq_nil_of_le h3]

theorem reconcile_eq (t : String) (texts : List String) :
    reconcile t texts =
      (parseTranslations t ++ texts.drop (parseTranslations t).length).take texts.length := by
  show (padGo texts texts.length (parseTranslations t)).take texts.length = _
  rw [padGo_eq texts texts.length (parseTranslations t) (Nat.le_add_left _ _)]

theorem reconcile_length (t : String) (texts : List String) :
    (reconcile t texts).length = texts.length := by
  rw [reconcile_eq]
  simp only [List.length_take, List.length_append, List.length_drop]
  omega

/-- C1: for every batch `B` and every raw collaborator response text, the
response-reconciliation step of `translate_batch` returns a list of
exactly `B.length` translations (it is a total function, so it never
throws): the parsed lines fill the leading positions, every missing
trailing position `i` is filled with the source string `B[i]` at the
same position, and when more lines are parsed than `B.length` the list
is truncated to `B.length` — both captured by the closed form
`(parsed ++ B.drop parsed.length).take B.length`. -/
theorem C1_reconcile_length_invariant (response : String) (B : List String) :
    (reconcile response B).length = B.length ∧
    reconcile response B =
      (parseTranslations response ++ B.drop (parseTranslations response).length).take B.length :=
  ⟨reconcile_length response B, reconcile_eq response B⟩

/-- C3 counterexample: the claimed reconciliation
`["A", "B-translation", "C-translation"]` is NOT what the code produces
for the stub response `"B-translation\nC-translation"` against
`["A","B","C"]`: the code pairs response lines with batch positions 0
and 1 (not 1 and 2) and pads the missing trailing position 2 with its
own source string `"C"`. -/
theorem C3_reconcile_scenario_cex :
    reconcile "B-translation\nC-translation" ["A", "B", "C"] ≠
      ["A", "B-translation", "C-translation"] := by
  decide

/-- C3 amended: reconciling the stub response
`"B-translation\nC-translation"` against the batch `["A","B","C"]`
yields exactly `["B-translation", "C-translation", "C"]`: the two
response lines pair with batch positions 0 and 1, and the missing
trailing position 2 falls back to its own source string `"C"`. -/
theorem C3_reconcile_scenario_amended :
    reconcile "B-translation\nC-translation" ["A", "B", "C"] =
      ["B-translation", "C-translation", "C"] := by
  decide

/-- C5: for every non-empty batch, if the collaborator call inside
`translate_batch` raises (modelled as the collaborator returning
`none`), `translate_batch` returns the original batch unchanged; the
exception is consumed by the `except` clause, never propagated. -/
theorem C5_translate_batch_soft_fail (collab : List String → String → Option String)
    (texts : List String) (lang_name : String)
    (hne : texts ≠ []) (hfail : collab texts lang_name = none) :
    translate_batch collab texts lang_name = texts := by
  unfold translate_batch
  rw [hfail, if_neg]
  simp [List.isEmpty_iff, hne]

/-- C5 witness: a concrete failing call on the batch `["Hello"]`. -/
theorem C5_translate_batch_soft_fail_witness :
    (["Hello"] : List String) ≠ [] ∧ collabFail ["Hello"] "French" = none ∧
    translate_batch collabFail ["Hello"] "French" = ["Hello"] :=
  ⟨by decide, rfl, C5_translate_batch_soft_fail collabFail ["Hello"] "French" (by decide) rfl⟩

/-! Lemmas about the line-parsing separator ladder. -/

theorem contains_eq_isSome_subAt? (c : Char) (l : List Char) :
    l.contains c = (subAt? [c] l).isSome := by
  induction l with
  | nil => rfl
  | cons a rest ih =>
    show (c == a || rest.contains c) = _
    unfold subAt?
    have hp : ([c].isPrefixOf (a :: rest)) = (c == a) := by
      simp [List.isPrefixOf]
    by_cases h : c == a
    · rw [hp, if_pos h]
      simp [h]
    · rw [hp, if_neg h]
      simp only [Bool.false_or, h]
      rw [ih]
      cases subAt? [c] rest with
      | none => rfl
      | some p => rfl

/-- C10: in the reconciler's line parsing, `'|'` takes strict precedence
over `'. '`: a line containing `'|'` is always split at the first `'|'`
(even when `'. '` occurs, and occurs earlier); `'. '` is consulted only
for lines containing no `'|'`; a line containing neither separator is
taken whole as the translation. -/
theorem C10_separator_precedence (line : List Char) :
    (line.contains '|' = true → lineStep line = some (stripChars (subAfter ['|'] line))) ∧
    (line.contains '|' = false → containsSub ['.', ' '] line = true →
      lineStep line = some (stripChars (subAfter ['.', ' '] line))) ∧
    (line.contains '|' = false → containsSub ['.', ' '] line = false →
      lineStep line = some line) := by
  refine ⟨?_, ?_, ?_⟩
  · intro h
    have hmem : '|' ∈ line := by simpa using h
    have h2 : (subAt? ['|'] line).isSome := by rw [← contains_eq_isSome_subAt?, h]
    obtain ⟨⟨a, b⟩, hab⟩ := Option.isSome_iff_exists.mp h2
    simp [lineStep, hmem, pySplit1, subAfter, hab]
  · intro h h2
    have hmem : '|' ∉ line := by simpa using h
    have h3 : (subAt? ['.', ' '] line).isSome := h2
    obtain ⟨⟨a, b⟩, hab⟩ := Option.isSome_iff_exists.mp h3
    simp [lineStep, hmem, containsSub, pySplit1, subAfter, hab, h2]
  · intro h h2
    have hmem : '|' ∉ line := by simpa using h
    simp [lineStep, hmem, h2]

/-- C10 witness: the line `1. x|y` contains both separators, with `'. '`
occurring earlier; the translation is taken after the first `'|'`. -/
theorem C10_separator_precedence_witness :
    ("1. x|y".toList.contains '|' = true) ∧
    lineStep "1. x|y".toList = some (stripChars (subAfter ['|'] "1. x|y".toList)) :=
  ⟨by decide, (C10_separator_precedence "1. x|y".toList).1 (by decide)⟩

/-- C4 counterexample: the key `" "` (a single space) is non-empty and
its entry has no localizations map at all, yet the Diff Engine does not
return it: `key.strip()` also discards whitespace-only keys, not only
the empty string. -/
theorem C4_diff_engine_cex :
    pendingKeys [(" ", { localizations := none, extra := [] })] "fr" = [] ∧
    (" " : String) ≠ "" := by
  constructor
  · decide
  · decide

/-- C4 amended: for every catalog and locale code the Diff Engine
returns, in catalog iteration order, exactly those keys whose stripped
key is non-empty (so whitespace-only keys are skipped along with the
empty string) and whose entry either has no localizations map at all or
has no localization for that locale; as a pure function of the catalog
it leaves the catalog unmodified. -/
theorem C4_diff_engine_amended (cat : Catalog) (code : String) :
    pendingKeys cat code = diffSpec cat code := by
  induction cat with
  | nil => rfl
  | cons kv rest ih =>
    unfold pendingKeys diffSpec at ih ⊢
    simp only [List.filterMap_cons, List.filter_cons]
    by_cases h1 : pyStrip kv.1 = ""
    · simp [pendStep, h1, ih]
    · cases h2 : kv.2.localizations with
      | none => simp [pendStep, h1, h2, hasLocale, ih]
      | some m =>
        by_cases h3 : dictContains m code
        · simp [pendStep, h1, h2, h3, hasLocale, ih]
        · simp [pendStep, h1, h2, h3, hasLocale, ih]

/-! Lemmas about the insertion-ordered dict model. -/

theorem dictGet?_cons {α : Type} (p : String × α) (d : List (String × α)) (k : String) :
    dictGet? (p :: d) k = if p.1 == k then some p.2 else dictGet? d k := by
  unfold dictGet?
  rw [List.find?_cons]
  cases h : (p.1 == k) <;> simp [h]

theorem mem_keys_iff_isSome_dictGet? {α : Type} (d : List (String × α)) (k : String) :
    k ∈ d.map Prod.fst ↔ (dictGet? d k).isSome := by
  induction d with
  | nil => simp [dictGet?]
  | cons p rest ih =>
    rw [dictGet?_cons, List.map_cons, List.mem_cons]
    by_cases h : p.1 = k
    · simp [h]
    · have hb : (p.1 == k) = false := by simp [h]
      have h2 : ¬ k = p.1 := fun e => h e.symm
      simp [hb, h2, ih]

theorem dictContains_eq_isSome {α : Type} (d : List (String × α)) (k : String) :
    dictContains d k = (dictGet? d k).isSome := by
  induction d with
  | nil => rfl
  | cons p rest ih =>
    unfold dictContains
    rw [List.any_cons, dictGet?_cons]
    cases h : (p.1 == k)
    · simpa [h] using ih
    · simp [h]

theorem dictGet?_mapUpd_self {α : Type} (d : List (String × α)) (k : String) (v : α) :
    dictGet? (d.map (fun p => if p.1 == k then (p.1, v) else p)) k =
      (dictGet? d k).map (fun _ => v) := by
  induction d with
  | nil => rfl
  | cons p rest ih =>
    rw [List.map_cons]
    cases hb : (p.1 == k)
    · rw [dictGet?_cons, dictGet?_cons]
      simp only [hb, if_false, cond_false, Bool.false_eq_true, ite_false]
      exact ih
    · simp [dictGet?_cons, hb]

theorem dictGet?_mapUpd_ne {α : Type} (d : List (String × α)) (k : String) (v : α)
    (k2 : String) (h : k2 ≠ k) :
    dictGet? (d.map (fun p => if p.1 == k then (p.1, v) else p)) k2 = dictGet? d k2 := by
  induction d with
  | nil => rfl
  | cons p rest ih =>
    rw [List.map_cons]
    cases hb : (p.1 == k)
    · simp only [hb, Bool.false_eq_true, ite_false]
      rw [dictGet?_cons, dictGet?_cons]
      cases hb2 : (p.1 == k2)
      · simp only [hb2, Bool.false_eq_true, ite_false]
        exact ih
      · simp only [hb2, ite_true]
    · have hpk : p.1 = k := by simpa using hb
      have hb2 : (p.1 == k2) = false := by
        have h2 : ¬ p.1 = k2 := fun e => h ((hpk.symm.trans e).symm)
        simp [h2]
      simp only [hb, ite_true]
      rw [dictGet?_cons, dictGet?_cons]
      simp only [hb2, Bool.false_eq_true, ite_false]
      exact ih

theorem dictGet?_dictSet_self {α : Type} (d : List (String × α)) (k : String) (v : α) :
    dictGet? (dictSet d k v) k = some v := by
  unfold dictSet
  by_cases h : dictContains d k = true
  · rw [if_pos h, dictGet?_mapUpd_self]
    rw [dictContains_eq_isSome] at h
    obtain ⟨w, hw⟩ := Option.isSome_iff_exists.mp h
    rw [hw]
    rfl
  · rw [if_neg h]
    rw [dictContains_eq_isSome] at h
    have hnone : dictGet? d k = none := by
      cases ho : dictGet? d k
      · rfl
      · rw [ho] at h; exact absurd rfl h
    unfold dictGet? at hnone ⊢
    rw [List.find?_append]
    have : d.find? (fun p => p.1 == k) = none := by
      cases hf : d.find? (fun p => p.1 == k)
      · rfl
      · rw [hf] at hnone; exact absurd hnone (by simp)
    rw [this]
    simp [List.find?]

theorem dictGet?_dictSet_ne {α : Type} (d : List (String × α)) (k : String) (v : α)
    (k2 : String) (h : k2 ≠ k) :
    dictGet? (dictSet d k v) k2 = dictGet? d k2 := by
  unfold dictSet
  by_cases hc : dictContains d k = true
  · rw [if_pos hc, dictGet?_mapUpd_ne _ _ _ _ h]
  · rw [if_neg hc]
    unfold dictGet?
    rw [List.find?_append]
    have hb : (k == k2) = false := by
      have : ¬ k = k2 := fun e => h e.symm
      simp [this]
    cases hf : List.find? (fun p => p.1 == k2) d <;> simp [hf, List.find?, hb]

theorem dictContains_dictSet_self {α : Type} (d : List (String × α)) (k : String) (v : α) :
    dictContains (dictSet d k v) k = true := by
  rw [dictContains_eq_isSome, dictGet?_dictSet_self]
  rfl

theorem dictContains_dictSet_ne {α : Type} (d : List (String × α)) (k : String) (v : α)
    (k2 : String) (h : k2 ≠ k) :
    dictContains (dictSet d k v) k2 = dictContains d k2 := by
  rw [dictContains_eq_isSome, dictContains_eq_isSome, dictGet?_dictSet_ne _ _ _ _ h]

theorem mem_keys_dictSet_of {α : Type} (d : List (String × α)) (k : String) (v : α)
    (k2 : String) (h : k2 ∈ d.map Prod.fst ∨ k2 = k) :
    k2 ∈ (dictSet d k v).map Prod.fst := by
  rw [mem_keys_iff_isSome_dictGet?]
  by_cases e : k2 = k
  · subst e
    rw [dictGet?_dictSet_self]
    rfl
  · rcases h with h | h
    · rw [dictGet?_dictSet_ne _ _ _ _ e]
      exact (mem_keys_iff_isSome_dictGet? d k2).mp h
    · exact absurd h e

theorem mem_keys_dictSetAll {α : Type} (ps : List (String × α)) :
    ∀ (d : List (String × α)) (k2 : String),
      (k2 ∈ d.map Prod.fst ∨ k2 ∈ ps.map Prod.fst) →
      k2 ∈ (dictSetAll d ps).map Prod.fst := by
  induction ps with
  | nil =>
    intro d k2 h
    rcases h with h | h
    · exact h
    · cases h
  | cons p rest ih =>
    intro d k2 h
    show k2 ∈ (dictSetAll (dictSet d p.1 p.2) rest).map Prod.fst
    apply ih
    rcases h with h | h
    · exact Or.inl (mem_keys_dictSet_of _ _ _ _ (Or.inl h))
    · rw [List.map_cons, List.mem_cons] at h
      rcases h with h | h
      · exact Or.inl (mem_keys_dictSet_of _ _ _ _ (Or.inr h))
      · exact Or.inr h

theorem diag_dictSet (m : List (String × String)) (k : String)
    (hm : ∀ p ∈ m, p.2 = p.1) :
    ∀ p ∈ dictSet m k k, p.2 = p.1 := by
  unfold dictSet
  by_cases hc : dictContains m k = true
  · rw [if_pos hc]
    intro p hp
    obtain ⟨q, hq, rfl⟩ := List.mem_map.mp hp
    by_cases hb : q.1 = k
    · simp [hb]
    · have : (q.1 == k) = false := by simp [hb]
      simp only [this, Bool.false_eq_true, ite_false]
      exact hm q hq
  · rw [if_neg hc]
    intro p hp
    rcases List.mem_append.mp hp with h | h
    · exact hm p h
    · rcases List.mem_singleton.mp h with rfl
      rfl

theorem diag_dictSetAll (ps : List (String × String)) :
    ∀ (m : List (String × String)), (∀ p ∈ m, p.2 = p.1) → (∀ p ∈ ps, p.2 = p.1) →
      ∀ p ∈ dictSetAll m ps, p.2 = p.1 := by
  induction ps with
  | nil => intro m hm _ p hp; exact hm p hp
  | cons q rest ih =>
    intro m hm hps p hp
    have hq : q.2 = q.1 := hps q (List.mem_cons_self _ _)
    have hstep : ∀ r ∈ dictSet m q.1 q.2, r.2 = r.1 := by
      rw [hq]
      exact diag_dictSet m q.1 hm
    exact ih (dictSet m q.1 q.2) hstep (fun r hr => hps r (List.mem_cons_of_mem _ hr)) p hp

theorem zip_self_diag (l : List String) : ∀ p ∈ l.zip l, p.2 = p.1 := by
  induction l with
  | nil => intro p hp; cases hp
  | cons a rest ih =>
    intro p hp
    rcases List.mem_cons.mp hp with rfl | hp2
    · rfl
    · exact ih p hp2

theorem dictGet?_eq_self_of_diag (m : List (String × String)) (k : String)
    (hm : ∀ p ∈ m, p.2 = p.1) (hk : k ∈ m.map Prod.fst) :
    dictGet? m k = some k := by
  have hs : (dictGet? m k).isSome := (mem_keys_iff_isSome_dictGet? m k).mp hk
  obtain ⟨v, hv⟩ := Option.isSome_iff_exists.mp hs
  unfold dictGet? at hv
  obtain ⟨q, hq, hq2⟩ := Option.map_eq_some'.mp hv
  have hqm := List.mem_of_find?_eq_some hq
  have hqk := List.find?_some hq
  have h1 : q.1 = k := by simpa using hqk
  have h2 : q.2 = q.1 := hm q hqm
  unfold dictGet?
  rw [hq]
  simp [h2, h1]

/-! Lemmas about the per-entry effect of the merge. -/

/-- Last value assigned to key `k` by the sequence of dict assignments
`ts` (the value that survives, since later assignments override). -/
def lastVal? (ts : List (String × String)) (k : String) : Option String :=
  match ts with
  | [] => none
  | p :: rest =>
    match lastVal? rest k with
    | some t => some t
    | none => if p.1 == k then some p.2 else none

/-- Cumulative effect of merging the pairs of `ts` on the single entry
stored at key `k` (each pair whose key is `k` rewrites
`localizations[lang_code]`). -/
def entUpd (lang_code k : String) (e : Entry) (ts : List (String × String)) : Entry :=
  ts.foldl (fun e p => if p.1 == k then setLoc e lang_code p.2 else e) e

theorem locsOf_setLoc (e : Entry) (code t : String) :
    locsOf (setLoc e code t) = dictSet (locsOf e) code ⟨⟨"translated", t⟩⟩ := rfl

theorem extra_setLoc (e : Entry) (code t : String) : (setLoc e code t).extra = e.extra := rfl

theorem lookup_setLoc_self (e : Entry) (code t : String) :
    dictGet? (locsOf (setLoc e code t)) code = some ⟨⟨"translated", t⟩⟩ := by
  rw [locsOf_setLoc, dictGet?_dictSet_self]

theorem lookup_setLoc_ne (e : Entry) (code t c2 : String) (h : c2 ≠ code) :
    dictGet? (locsOf (setLoc e code t)) c2 = dictGet? (locsOf e) c2 := by
  rw [locsOf_setLoc, dictGet?_dictSet_ne _ _ _ _ h]

theorem lookup_entUpd_code (code k : String) (ts : List (String × String)) :
    ∀ e : Entry, dictGet? (locsOf (entUpd code k e ts)) code =
      match lastVal? ts k with
      | some t => some ⟨⟨"translated", t⟩⟩
      | none => dictGet? (locsOf e) code := by
  induction ts with
  | nil => intro e; rfl
  | cons p rest ih =>
    intro e
    show dictGet? (locsOf (entUpd code k (if p.1 == k then setLoc e code p.2 else e) rest)) code = _
    rw [ih]
    cases hl : lastVal? rest k with
    | some t => simp [lastVal?, hl]
    | none =>
      cases hb : (p.1 == k)
      · simp [lastVal?, hl, hb]
      · simp [lastVal?, hl, hb, lookup_setLoc_self]

theorem lookup_entUpd_ne (code k c2 : String) (h : c2 ≠ code) (ts : List (String × String)) :
    ∀ e : Entry, dictGet? (locsOf (entUpd code k e ts)) c2 = dictGet? (locsOf e) c2 := by
  induction ts with
  | nil => intro e; rfl
  | cons p rest ih =>
    intro e
    show dictGet? (locsOf (entUpd code k (if p.1 == k then setLoc e code p.2 else e) rest)) c2 = _
    rw [ih]
    cases hb : (p.1 == k)
    · simp [hb]
    · simp [hb, lookup_setLoc_ne _ _ _ _ h]

theorem extra_entUpd (code k : String) (ts : List (String × String)) :
    ∀ e : Entry, (entUpd code k e ts).extra = e.extra := by
  induction ts with
  | nil => intro e; rfl
  | cons p rest ih =>
    intro e
    show (entUpd code k (if p.1 == k then setLoc e code p.2 else e) rest).extra = _
    rw [ih]
    cases hb : (p.1 == k) <;> simp [hb, extra_setLoc]

theorem entUpd_of_not_mem (code k : String) (ts : List (String × String))
    (h : k ∉ ts.map Prod.fst) : ∀ e : Entry, entUpd code k e ts = e := by
  induction ts with
  | nil => intro e; rfl
  | cons p rest ih =>
    intro e
    rw [List.map_cons, List.mem_cons] at h
    push_neg at h
    have hb : (p.1 == k) = false := by
      have : ¬ p.1 = k := fun e2 => h.1 e2.symm
      simp [this]
    show entUpd code k (if p.1 == k then setLoc e code p.2 else e) rest = e
    rw [hb]
    simpa using ih h.2 e

theorem lastVal?_mem (k t : String) : ∀ ts : List (String × String),
    lastVal? ts k = some t → (k, t) ∈ ts := by
  intro ts
  induction ts with
  | nil => intro h; cases h
  | cons p rest ih =>
    intro h
    unfold lastVal? at h
    cases hl : lastVal? rest k with
    | some u =>
      simp only [hl] at h
      have hu : u = t := Option.some.inj h
      exact List.mem_cons_of_mem _ (ih (hu ▸ hl))
    | none =>
      simp only [hl] at h
      cases hb : (p.1 == k)
      · rw [hb] at h
        simp at h
      · rw [hb] at h
        simp only [ite_true] at h
        have hpt : p.2 = t := Option.some.inj h
        have hpk : p.1 = k := by simpa using hb
        have hp : p = (k, t) := by
          cases p with
          | mk a b =>
            simp only at hpk hpt
            rw [hpk, hpt]
        rw [← hp]
        exact List.mem_cons_self _ _

theorem lastVal?_isSome_of_mem (k : String) : ∀ ts : List (String × String),
    k ∈ ts.map Prod.fst → (lastVal? ts k).isSome := by
  intro ts
  induction ts with
  | nil => intro h; cases h
  | cons p rest ih =>
    intro h
    unfold lastVal?
    cases hl : lastVal? rest k with
    | some t => rfl
    | none =>
      rw [List.map_cons, List.mem_cons] at h
      rcases h with h | h
      · have hb : (p.1 == k) = true := by simp [h]
        rw [hb]
        rfl
      · have := ih h
        rw [hl] at this
        cases this

theorem lastVal?_diag (k : String) (ts : List (String × String))
    (hts : ∀ p ∈ ts, p.2 = p.1) (h : k ∈ ts.map Prod.fst) :
    lastVal? ts k = some k := by
  have hs := lastVal?_isSome_of_mem k ts h
  obtain ⟨t, ht⟩ := Option.isSome_iff_exists.mp hs
  have hm := lastVal?_mem k t ts ht
  have : t = k := hts (k, t) hm
  rw [ht, this]

/-! Lemmas about the catalog-level merge. -/

theorem dictGet?_dictModify {α : Type} (d : List (String × α)) (k : String) (f : α → α)
    (k2 : String) :
    dictGet? (dictModify d k f) k2 =
      (dictGet? d k2).map (fun v => if k2 == k then f v else v) := by
  induction d with
  | nil => rfl
  | cons p rest ih =>
    show dictGet? ((if p.1 == k then (p.1, f p.2) else p) :: dictModify rest k f) k2 = _
    cases hb : (p.1 == k)
    · simp only [hb, Bool.false_eq_true, ite_false]
      rw [dictGet?_cons, dictGet?_cons]
      cases hb2 : (p.1 == k2)
      · simp only [hb2, Bool.false_eq_true, ite_false]
        exact ih
      · have hp2 : p.1 = k2 := by simpa using hb2
        have hk2 : (k2 == k) = false := by
          have hne : ¬ p.1 = k := by simpa using hb
          have : ¬ k2 = k := fun e => hne (hp2 ▸ e : p.1 = k)
          simp [this]
        simp [hb2, hk2]
    · have hpk : p.1 = k := by simpa using hb
      simp only [hb, ite_true]
      rw [dictGet?_cons, dictGet?_cons]
      cases hb2 : (p.1 == k2)
      · simp only [hb2, Bool.false_eq_true, ite_false]
        exact ih
      · have hp2 : p.1 = k2 := by simpa using hb2
        have hk2 : (k2 == k) = true := by
          have : k2 = k := hp2 ▸ hpk
          simp [this]
        simp [hb2, hk2]

theorem dictGet?_applyOne (cat : Catalog) (code k t k2 : String) :
    dictGet? (applyOne cat code k t) k2 =
      (dictGet? cat k2).map (fun e => if k2 == k then setLoc e code t else e) :=
  dictGet?_dictModify cat k (fun e => setLoc e code t) k2

theorem dictGet?_applyTranslations (code : String) (ts : List (String × String)) :
    ∀ (cat : Catalog) (k : String),
      dictGet? (applyTranslations cat code ts) k =
        (dictGet? cat k).map (fun e => entUpd code k e ts) := by
  induction ts with
  | nil =>
    intro cat k
    show dictGet? cat k = _
    cases dictGet? cat k <;> rfl
  | cons p rest ih =>
    intro cat k
    show dictGet? (applyTranslations (applyOne cat code p.1 p.2) code rest) k = _
    rw [ih, dictGet?_applyOne, Option.map_map]
    cases hc : dictGet? cat k with
    | none => rfl
    | some e =>
      simp only [Option.map_some', Function.comp]
      congr 1
      show entUpd code k (if k == p.1 then setLoc e code p.2 else e) rest = _
      show _ = entUpd code k (if p.1 == k then setLoc e code p.2 else e) rest
      by_cases h : k = p.1
      · have h1 : (k == p.1) = true := by simp [h]
        have h2 : (p.1 == k) = true := by simp [h.symm]
        rw [h1, h2]
      · have h1 : (k == p.1) = false := by simp [h]
        have h2 : (p.1 == k) = false := by
          have : ¬ p.1 = k := fun e2 => h e2.symm
          simp [this]
        rw [h1, h2]

theorem isSome_applyTranslations (cat : Catalog) (code : String) (ts : List (String × String))
    (k : String) :
    (dictGet? (applyTranslations cat code ts) k).isSome = (dictGet? cat k).isSome := by
  rw [dictGet?_applyTranslations]
  cases dictGet? cat k <;> rfl

theorem dictGet?_applyTranslations_not_mem (cat : Catalog) (code : String)
    (ts : List (String × String)) (k : String) (h : k ∉ ts.map Prod.fst) :
    dictGet? (applyTranslations cat code ts) k = dictGet? cat k := by
  rw [dictGet?_applyTranslations]
  cases hc : dictGet? cat k with
  | none => rfl
  | some e => simp [entUpd_of_not_mem code k ts h]

theorem lookupLoc_applyTranslations_self (cat : Catalog) (code : String)
    (ts : List (String × String)) (k : String) :
    lookupLoc (applyTranslations cat code ts) k code =
      match lastVal? ts k with
      | some t => if (dictGet? cat k).isSome then some ⟨⟨"translated", t⟩⟩ else none
      | none => lookupLoc cat k code := by
  unfold lookupLoc
  rw [dictGet?_applyTranslations]
  cases hc : dictGet? cat k with
  | none => cases hl : lastVal? ts k <;> simp
  | some e =>
    simp only [Option.map_some', Option.some_bind]
    rw [lookup_entUpd_code]
    cases hl : lastVal? ts k <;> simp

theorem lookupLoc_applyTranslations_ne (cat : Catalog) (code : String)
    (ts : List (String × String)) (k c2 : String) (h : c2 ≠ code) :
    lookupLoc (applyTranslations cat code ts) k c2 = lookupLoc cat k c2 := by
  unfold lookupLoc
  rw [dictGet?_applyTranslations]
  cases hc : dictGet? cat k with
  | none => rfl
  | some e =>
    simp only [Option.map_some', Option.some_bind]
    rw [lookup_entUpd_ne _ _ _ h]

theorem keys_dictModify {α : Type} (d : List (String × α)) (k : String) (f : α → α) :
    (dictModify d k f).map Prod.fst = d.map Prod.fst := by
  unfold dictModify
  rw [List.map_map]
  apply List.map_congr_left
  intro p _
  by_cases hb : p.1 = k
  · have hb2 : (p.1 == k) = true := by simp [hb]
    simp [Function.comp, hb2]
  · have hb2 : (p.1 == k) = false := by simp [hb]
    simp [Function.comp, hb2]

theorem keys_applyTranslations (code : String) (ts : List (String × String)) :
    ∀ cat : Catalog, (applyTranslations cat code ts).map Prod.fst = cat.map Prod.fst := by
  induction ts with
  | nil => intro cat; rfl
  | cons p rest ih =>
    intro cat
    show (applyTranslations (applyOne cat code p.1 p.2) code rest).map Prod.fst = _
    rw [ih]
    exact keys_dictModify cat p.1 (fun e => setLoc e code p.2)

/-! Lemmas about the Diff Engine under merges. -/

theorem pendStep_eq_some {code : String} {kv : String × Entry} {v : String}
    (h : pendStep code kv = some v) : v = kv.1 := by
  unfold pendStep at h
  by_cases h1 : pyStrip kv.1 = ""
  · rw [if_pos h1] at h
    cases h
  · rw [if_neg h1] at h
    cases he : kv.2.localizations with
    | none =>
      rw [he] at h
      exact (Option.some.inj h).symm
    | some m =>
      rw [he] at h
      by_cases h3 : dictContains m code = true
      · simp only [h3, ite_true] at h
        cases h
      · simp only [h3, Bool.false_eq_true, ite_false] at h
        exact (Option.some.inj h).symm

theorem hasLocale_eq_contains_locsOf (e : Entry) (code : String) :
    hasLocale e code = dictContains (locsOf e) code := by
  unfold hasLocale locsOf
  cases e.localizations with
  | none => rfl
  | some m => rfl

theorem pendStep_eq (code : String) (kv : String × Entry) :
    pendStep code kv =
      if pyStrip kv.1 = "" then none
      else if hasLocale kv.2 code then none else some kv.1 := by
  unfold pendStep hasLocale
  cases kv.2.localizations with
  | none => by_cases h1 : pyStrip kv.1 = "" <;> simp [h1]
  | some m => by_cases h1 : pyStrip kv.1 = "" <;> simp [h1]

theorem hasLocale_setLoc_ne (e : Entry) (code c2 t : String) (h : code ≠ c2) :
    hasLocale (setLoc e c2 t) code = hasLocale e code := by
  rw [hasLocale_eq_contains_locsOf, locsOf_setLoc, dictContains_dictSet_ne _ _ _ _ h,
    hasLocale_eq_contains_locsOf]

theorem hasLocale_setLoc_self (e : Entry) (code t : String) :
    hasLocale (setLoc e code t) code = true := by
  rw [hasLocale_eq_contains_locsOf, locsOf_setLoc]
  exact dictContains_dictSet_self _ _ _

theorem pendStep_setLoc_ne (code c2 : String) (h : c2 ≠ code) (k t : String) (e : Entry) :
    pendStep code (k, setLoc e c2 t) = pendStep code (k, e) := by
  rw [pendStep_eq, pendStep_eq]
  have hcc : (code : String) ≠ c2 := fun e2 => h e2.symm
  show (if pyStrip k = "" then none
    else if hasLocale (setLoc e c2 t) code then none else some k) = _
  rw [hasLocale_setLoc_ne e code c2 t hcc]

theorem pendStep_setLoc_self (code k t : String) (e : Entry) :
    pendStep code (k, setLoc e code t) = none := by
  rw [pendStep_eq]
  show (if pyStrip k = "" then none
    else if hasLocale (setLoc e code t) code then none else some k) = none
  rw [hasLocale_setLoc_self]
  by_cases h1 : pyStrip k = "" <;> simp [h1]

theorem pendingKeys_applyOne_ne (cat : Catalog) (code c2 : String) (h : c2 ≠ code)
    (k t : String) :
    pendingKeys (applyOne cat c2 k t) code = pendingKeys cat code := by
  unfold pendingKeys applyOne dictModify
  rw [List.filterMap_map]
  apply List.filterMap_congr
  intro p _
  cases hb : (p.1 == k)
  · simp [Function.comp, hb]
  · simp only [Function.comp, hb, ite_true]
    show pendStep code (p.1, setLoc p.2 c2 t) = pendStep code p
    rw [pendStep_setLoc_ne code c2 h]

theorem pendingKeys_applyTranslations_ne (code c2 : String) (h : c2 ≠ code)
    (ts : List (String × String)) :
    ∀ cat : Catalog, pendingKeys (applyTranslations cat c2 ts) code = pendingKeys cat code := by
  induction ts with
  | nil => intro cat; rfl
  | cons p rest ih =>
    intro cat
    show pendingKeys (applyTranslations (applyOne cat c2 p.1 p.2) c2 rest) code = _
    rw [ih, pendingKeys_applyOne_ne cat code c2 h]

theorem pendingKeys_applyOne_self (code k t : String) :
    ∀ cat : Catalog, pendingKeys (applyOne cat code k t) code =
      (pendingKeys cat code).filter (fun k2 => !(k2 == k)) := by
  intro cat
  induction cat with
  | nil => rfl
  | cons p rest ih =>
    show pendingKeys ((if p.1 == k then (p.1, setLoc p.2 code t) else p) ::
      applyOne rest code k t) code = _
    unfold pendingKeys
    rw [List.filterMap_cons, List.filterMap_cons]
    cases hb : (p.1 == k)
    · simp only [hb, Bool.false_eq_true, ite_false]
      cases hp : pendStep code p with
      | none =>
        show pendingKeys (applyOne rest code k t) code = _
        rw [ih]
        rfl
      | some v =>
        have hv := pendStep_eq_some hp
        have hvk : (v == k) = false := by rw [hv]; exact hb
        rw [List.filter_cons]
        simp only [hvk, Bool.not_false, ite_true]
        show v :: pendingKeys (applyOne rest code k t) code = _
        rw [ih]
        rfl
    · simp only [hb, ite_true]
      rw [pendStep_setLoc_self code p.1 t p.2]
      cases hp : pendStep code p with
      | none =>
        show pendingKeys (applyOne rest code k t) code = _
        rw [ih]
        rfl
      | some v =>
        have hv := pendStep_eq_some hp
        have hpk : p.1 = k := by simpa using hb
        have hvk : (v == k) = true := by rw [hv, hpk]; simp
        rw [List.filter_cons]
        simp only [hvk, Bool.not_true, Bool.false_eq_true, ite_false]
        show pendingKeys (applyOne rest code k t) code = _
        rw [ih]
        rfl

theorem any_beq_of_mem_keys (m : List (String × String)) (k : String)
    (h : k ∈ m.map Prod.fst) : (m.any (fun p => p.1 == k)) = true := by
  rw [List.any_eq_true]
  obtain ⟨p, hp, hfst⟩ := List.mem_map.mp h
  exact ⟨p, hp, by simp [hfst]⟩

theorem pendingKeys_applyTranslations_self (code : String) (ts : List (String × String)) :
    ∀ cat : Catalog, pendingKeys (applyTranslations cat code ts) code =
      (pendingKeys cat code).filter (fun k2 => !(ts.any (fun p => p.1 == k2))) := by
  induction ts with
  | nil =>
    intro cat
    show pendingKeys cat code = _
    symm
    apply List.filter_eq_self.mpr
    intro a _
    rfl
  | cons p rest ih =>
    intro cat
    show pendingKeys (applyTranslations (applyOne cat code p.1 p.2) code rest) code = _
    rw [ih, pendingKeys_applyOne_self, List.filter_filter]
    apply List.filter_congr
    intro a _
    cases hb : (p.1 == a)
    · have hab : (a == p.1) = false := by
        have h1 : ¬ p.1 = a := by simpa using hb
        have : ¬ a = p.1 := fun e => h1 e.symm
        simp [this]
      simp [List.any_cons, hb, hab]
    · have hab : (a == p.1) = true := by
        have h1 : p.1 = a := by simpa using hb
        simp [h1.symm]
      simp [List.any_cons, hb, hab]

theorem pendingKeys_mem_keys (cat : Catalog) (code k : String)
    (h : k ∈ pendingKeys cat code) : k ∈ cat.map Prod.fst := by
  unfold pendingKeys at h
  obtain ⟨kv, hkv, hstep⟩ := List.mem_filterMap.mp h
  have := pendStep_eq_some hstep
  rw [this]
  exact List.mem_map_of_mem Prod.fst hkv

/-! Lemmas about the batching loop of the locale pipeline. -/

theorem translate_batch_length (collab : List String → String → Option String)
    (texts : List String) (lang_name : String) :
    (translate_batch collab texts lang_name).length = texts.length := by
  unfold translate_batch
  by_cases he : texts.isEmpty = true
  · rw [if_pos he, List.isEmpty_iff.mp he]
  · rw [if_neg he]
    cases hc : collab texts lang_name with
    | none => rfl
    | some content => exact reconcile_length (pyStrip content) texts

theorem translate_batch_fail_eq (collab : List String → String → Option String)
    (texts : List String) (lang_name : String) (hfail : collab texts lang_name = none) :
    translate_batch collab texts lang_name = texts := by
  unfold translate_batch
  by_cases he : texts.isEmpty = true
  · rw [if_pos he, List.isEmpty_iff.mp he]
  · rw [if_neg he, hfail]

theorem batchLoop_keys_covers (collab : List String → String → Option String)
    (lang_name : String) :
    ∀ (keys : List String) (batch : List String) (acc : List (String × String)) (k : String),
      (k ∈ acc.map Prod.fst ∨ k ∈ batch ∨ k ∈ keys) →
      k ∈ (batchLoop collab lang_name keys batch acc).map Prod.fst := by
  intro keys
  induction keys with
  | nil =>
    intro batch acc k h
    rw [batchLoop]
    by_cases hb : batch.isEmpty = true
    · rw [if_pos hb]
      rcases h with h | h | h
      · exact h
      · rw [List.isEmpty_iff.mp hb] at h
        cases h
      · cases h
    · rw [if_neg hb]
      apply mem_keys_dictSetAll
      rcases h with h | h | h
      · exact Or.inl h
      · right
        rw [List.map_fst_zip batch (translate_batch collab batch lang_name)
          (by rw [translate_batch_length])]
        exact h
      · cases h
  | cons k0 rest ih =>
    intro batch acc k h
    rw [batchLoop]
    by_cases hl : (batch ++ [k0]).length ≥ 100
    · rw [if_pos hl]
      apply ih
      rcases h with h | h | h
      · exact Or.inl (mem_keys_dictSetAll _ _ _ (Or.inl h))
      · left
        apply mem_keys_dictSetAll
        right
        rw [List.map_fst_zip (batch ++ [k0]) (translate_batch collab (batch ++ [k0]) lang_name)
          (by rw [translate_batch_length])]
        exact List.mem_append_left _ h
      · rcases List.mem_cons.mp h with rfl | h2
        · left
          apply mem_keys_dictSetAll
          right
          rw [List.map_fst_zip (batch ++ [k]) (translate_batch collab (batch ++ [k]) lang_name)
            (by rw [translate_batch_length])]
          exact List.mem_append_right _ (List.mem_singleton_self _)
        · exact Or.inr (Or.inr h2)
    · rw [if_neg hl]
      apply ih
      rcases h with h | h | h
      · exact Or.inl h
      · exact Or.inr (Or.inl (List.mem_append_left _ h))
      · rcases List.mem_cons.mp h with rfl | h2
        · exact Or.inr (Or.inl (List.mem_append_right _ (List.mem_singleton_self _)))
        · exact Or.inr (Or.inr h2)

theorem translate_language_covers (collab : List String → String → Option String)
    (cat : Catalog) (code name k : String) (h : k ∈ pendingKeys cat code) :
    k ∈ (translate_language collab cat code name).map Prod.fst :=
  batchLoop_keys_covers collab name (pendingKeys cat code) [] [] k (Or.inr (Or.inr h))

theorem batchLoop_diag (collab : List String → String → Option String) (lang_name : String)
    (hfail : ∀ b l, collab b l = none) :
    ∀ (keys : List String) (batch : List String) (acc : List (String × String)),
      (∀ p ∈ acc, p.2 = p.1) →
      ∀ p ∈ batchLoop collab lang_name keys batch acc, p.2 = p.1 := by
  intro keys
  induction keys with
  | nil =>
    intro batch acc hacc p hp
    rw [batchLoop] at hp
    by_cases hb : batch.isEmpty = true
    · rw [if_pos hb] at hp
      exact hacc p hp
    · rw [if_neg hb, translate_batch_fail_eq collab batch lang_name (hfail batch lang_name)] at hp
      exact diag_dictSetAll _ acc hacc (zip_self_diag batch) p hp
  | cons k0 rest ih =>
    intro batch acc hacc p hp
    rw [batchLoop] at hp
    by_cases hl : (batch ++ [k0]).length ≥ 100
    · rw [if_pos hl, translate_batch_fail_eq collab _ lang_name (hfail _ lang_name)] at hp
      exact ih [] _ (diag_dictSetAll _ acc hacc (zip_self_diag _)) p hp
    · rw [if_neg hl] at hp
      exact ih _ acc hacc p hp

theorem translate_language_diag (collab : List String → String → Option String)
    (cat : Catalog) (code name : String) (hfail : ∀ b l, collab b l = none) :
    ∀ p ∈ translate_language collab cat code name, p.2 = p.1 :=
  batchLoop_diag collab name hfail (pendingKeys cat code) [] [] (fun p hp => absurd hp (List.not_mem_nil p))

theorem translate_language_fail_get (collab : List String → String → Option String)
    (cat : Catalog) (code name k : String) (hfail : ∀ b l, collab b l = none)
    (h : k ∈ pendingKeys cat code) :
    dictGet? (translate_language collab cat code name) k = some k :=
  dictGet?_eq_self_of_diag _ k (translate_language_diag collab cat code name hfail)
    (translate_language_covers collab cat code name k h)

theorem translate_language_nil (collab : List String → String → Option String)
    (cat : Catalog) (code name : String) (h : pendingKeys cat code = []) :
    translate_language collab cat code name = [] := by
  unfold translate_language
  rw [h]
  rfl

/-! Lemmas about the merge phases (sequential and parallel collectors). -/

theorem mergeGo_lookup_ne (F : Catalog → String × String → List (String × String))
    (code k : String) :
    ∀ (L : List (String × String)) (c : Catalog), (∀ q ∈ L, q.1 ≠ code) →
      lookupLoc (mergeGo F L c) k code = lookupLoc c k code := by
  intro L
  induction L with
  | nil => intro c _; rfl
  | cons q rest ih =>
    intro c h
    show lookupLoc (mergeGo F rest (applyTranslations c q.1 (F c q))) k code = _
    rw [ih _ (fun r hr => h r (List.mem_cons_of_mem _ hr))]
    exact lookupLoc_applyTranslations_ne c q.1 (F c q) k code
      (fun e => (h q (List.mem_cons_self _ _)) e.symm)

theorem mergeGo_pending_ne (F : Catalog → String × String → List (String × String))
    (code : String) :
    ∀ (L : List (String × String)) (c : Catalog), (∀ q ∈ L, q.1 ≠ code) →
      pendingKeys (mergeGo F L c) code = pendingKeys c code := by
  intro L
  induction L with
  | nil => intro c _; rfl
  | cons q rest ih =>
    intro c h
    show pendingKeys (mergeGo F rest (applyTranslations c q.1 (F c q))) code = _
    rw [ih _ (fun r hr => h r (List.mem_cons_of_mem _ hr))]
    exact pendingKeys_applyTranslations_ne code q.1 (h q (List.mem_cons_self _ _)) (F c q) c

theorem mergeGo_isSome (F : Catalog → String × String → List (String × String)) (k : String) :
    ∀ (L : List (String × String)) (c : Catalog),
      (dictGet? (mergeGo F L c) k).isSome = (dictGet? c k).isSome := by
  intro L
  induction L with
  | nil => intro c; rfl
  | cons q rest ih =>
    intro c
    show (dictGet? (mergeGo F rest (applyTranslations c q.1 (F c q))) k).isSome = _
    rw [ih, isSome_applyTranslations]

theorem fst_inj_of_nodup {α : Type} :
    ∀ {l : List (String × α)}, (l.map Prod.fst).Nodup →
      ∀ {p q : String × α}, p ∈ l → q ∈ l → p.1 = q.1 → p = q := by
  intro l
  induction l with
  | nil => intro _ p q hp; cases hp
  | cons a rest ih =>
    intro hnd p q hp hq he
    rw [List.map_cons, List.nodup_cons] at hnd
    rcases List.mem_cons.mp hp with rfl | hp2
    · rcases List.mem_cons.mp hq with rfl | hq2
      · rfl
      · have : p.1 ∈ rest.map Prod.fst := by
          rw [he]
          exact List.mem_map_of_mem Prod.fst hq2
        exact absurd this hnd.1
    · rcases List.mem_cons.mp hq with rfl | hq2
      · have : q.1 ∈ rest.map Prod.fst := by
          rw [← he]
          exact List.mem_map_of_mem Prod.fst hp2
        exact absurd this hnd.1
      · exact ih hnd.2 hp2 hq2 he

theorem find?_fst_cons_of_pos (a : String × String) (l : List (String × String)) (code : String)
    (h : (a.1 == code) = true) :
    List.find? (fun p => p.1 == code) (a :: l) = some a :=
  List.find?_cons_of_pos l h

theorem find?_fst_cons_of_neg (a : String × String) (l : List (String × String)) (code : String)
    (h : (a.1 == code) = false) :
    List.find? (fun p => p.1 == code) (a :: l) = List.find? (fun p => p.1 == code) l :=
  List.find?_cons_of_neg l (by simp [h])

theorem mergeGo_lookup_char (collab : List String → String → Option String) (cat0 : Catalog)
    (k code : String) (F : Catalog → String × String → List (String × String)) :
    ∀ (L : List (String × String)) (c : Catalog),
      (L.map Prod.fst).Nodup →
      (∀ p ∈ L, pendingKeys c p.1 = pendingKeys cat0 p.1) →
      ((dictGet? c k).isSome = (dictGet? cat0 k).isSome) →
      (∀ (c2 : Catalog) (p : String × String), p ∈ L →
        pendingKeys c2 p.1 = pendingKeys cat0 p.1 →
        F c2 p = translate_language collab cat0 p.1 p.2) →
      lookupLoc (mergeGo F L c) k code =
        (match L.find? (fun p => p.1 == code) with
         | none => lookupLoc c k code
         | some p =>
           match lastVal? (translate_language collab cat0 p.1 p.2) k with
           | some t => if (dictGet? cat0 k).isSome then some ⟨⟨"translated", t⟩⟩ else none
           | none => lookupLoc c k code) := by
  intro L
  induction L with
  | nil => intro c _ _ _ _; rfl
  | cons q rest ih =>
    obtain ⟨qc, qn⟩ := q
    intro c hnd hpend hsome hF
    rw [List.map_cons, List.nodup_cons] at hnd
    have hFq : F c (qc, qn) = translate_language collab cat0 qc qn :=
      hF c (qc, qn) (List.mem_cons_self _ _) (hpend (qc, qn) (List.mem_cons_self _ _))
    have hne_rest : ∀ r ∈ rest, r.1 ≠ qc := by
      intro r hr he
      have : qc ∈ rest.map Prod.fst := by
        rw [← he]
        exact List.mem_map_of_mem Prod.fst hr
      exact hnd.1 this
    have hstep_pend : ∀ p ∈ rest,
        pendingKeys (applyTranslations c qc (F c (qc, qn))) p.1 = pendingKeys cat0 p.1 := by
      intro p hp
      rw [pendingKeys_applyTranslations_ne p.1 qc (fun e => (hne_rest p hp) e.symm) _ c]
      exact hpend p (List.mem_cons_of_mem _ hp)
    have hstep_some :
        (dictGet? (applyTranslations c qc (F c (qc, qn))) k).isSome =
          (dictGet? cat0 k).isSome := by
      rw [isSome_applyTranslations]
      exact hsome
    have hF_rest : ∀ (c2 : Catalog) (p : String × String), p ∈ rest →
        pendingKeys c2 p.1 = pendingKeys cat0 p.1 →
        F c2 p = translate_language collab cat0 p.1 p.2 :=
      fun c2 p hp => hF c2 p (List.mem_cons_of_mem _ hp)
    show lookupLoc (mergeGo F rest (applyTranslations c qc (F c (qc, qn)))) k code = _
    by_cases hqc : qc = code
    · subst hqc
      rw [find?_fst_cons_of_pos (qc, qn) rest qc (by simp)]
      have hpres : ∀ r ∈ rest, r.1 ≠ qc := hne_rest
      rw [mergeGo_lookup_ne F qc k rest _ hpres, hFq,
        lookupLoc_applyTranslations_self c qc (translate_language collab cat0 qc qn) k]
      cases hl : lastVal? (translate_language collab cat0 qc qn) k with
      | some t =>
        simp only [hl]
        rw [hsome]
      | none => simp only [hl]
    · rw [find?_fst_cons_of_neg (qc, qn) rest code (by simp [hqc])]
      rw [ih _ hnd.2 hstep_pend hstep_some hF_rest]
      have hc1 : lookupLoc (applyTranslations c qc (F c (qc, qn))) k code =
          lookupLoc c k code :=
        lookupLoc_applyTranslations_ne c qc _ k code (fun e => hqc e.symm)
      cases hf : rest.find? (fun p => p.1 == code) with
      | none =>
        simp only [hf]
        exact hc1
      | some p =>
        simp only [hf]
        cases hl : lastVal? (translate_language collab cat0 p.1 p.2) k with
        | some t => simp only [hl]
        | none =>
          simp only [hl]
          exact hc1

theorem localizeSeq_lookup_char (collab : List String → String → Option String)
    (languages : List (String × String)) (cat : Catalog)
    (hnd : (languages.map Prod.fst).Nodup) (k code : String) :
    lookupLoc (localizeSeq collab languages cat) k code =
      (match languages.find? (fun p => p.1 == code) with
       | none => lookupLoc cat k code
       | some p =>
         match lastVal? (translate_language collab cat p.1 p.2) k with
         | some t => if (dictGet? cat k).isSome then some ⟨⟨"translated", t⟩⟩ else none
         | none => lookupLoc cat k code) := by
  apply mergeGo_lookup_char collab cat k code _ languages cat hnd (fun p _ => rfl) rfl
  intro c2 p _ hpend
  show batchLoop collab p.2 (pendingKeys c2 p.1) [] [] = _
  rw [hpend]
  rfl

theorem localizePar_lookup_char (collab : List String → String → Option String)
    (order : List (String × String)) (cat : Catalog)
    (hnd : (order.map Prod.fst).Nodup) (k code : String) :
    lookupLoc (localizePar collab cat order cat) k code =
      (match order.find? (fun p => p.1 == code) with
       | none => lookupLoc cat k code
       | some p =>
         match lastVal? (translate_language collab cat p.1 p.2) k with
         | some t => if (dictGet? cat k).isSome then some ⟨⟨"translated", t⟩⟩ else none
         | none => lookupLoc cat k code) := by
  apply mergeGo_lookup_char collab cat k code _ order cat hnd (fun p _ => rfl) rfl
  intro c2 p _ _
  rfl

/-! Remaining claim theorems. -/

/-- C2 counterexample: over the one-key catalog `{"A": {}}` and the two
locales `l1, l2`, a parallel run whose completion order is `l2` before
`l1` produces a catalog whose `localizations` dict lists `l2` before
`l1`, while the sequential run lists `l1` before `l2`; the two catalogs
are not equal as insertion-ordered structures, so their `json.dump`
serializations differ in byte content (the stubbed collaborator is the
deterministic always-failing stub, identical in both runs). -/
theorem C2_par_seq_cex :
    ([(("l2" : String), ("L2" : String)), ("l1", "L1")]).Perm [("l1", "L1"), ("l2", "L2")] ∧
    localizePar collabFail [("A", { localizations := none, extra := [] })]
        [("l2", "L2"), ("l1", "L1")] [("A", { localizations := none, extra := [] })] ≠
      localizeSeq collabFail [("l1", "L1"), ("l2", "L2")]
        [("A", { localizations := none, extra := [] })] := by
  constructor
  · decide
  · decide

/-- C2 amended: for every input catalog, every language table with
distinct locale codes, every completion order (a permutation of the
table) and the same deterministic collaborator, the parallel and the
sequential run agree on every `(key, locale)` pair: each pair receives
the same stringUnit (or none) in both modes.  The serialized outputs are
byte-identical only when the completion order equals the table order;
otherwise they may differ in the insertion order of locale keys inside
the `localizations` dicts (see the counterexample), never in any stored
stringUnit. -/
theorem C2_par_seq_agree (collab : List String → String → Option String)
    (languages order : List (String × String)) (cat : Catalog)
    (hperm : order.Perm languages) (hnd : (languages.map Prod.fst).Nodup)
    (k code : String) :
    lookupLoc (localizePar collab cat order cat) k code =
      lookupLoc (localizeSeq collab languages cat) k code := by
  have hndo : (order.map Prod.fst).Nodup := ((hperm.map Prod.fst).nodup_iff).mpr hnd
  rw [localizePar_lookup_char collab order cat hndo k code,
    localizeSeq_lookup_char collab languages cat hnd k code]
  have hfind : order.find? (fun p => p.1 == code) = languages.find? (fun p => p.1 == code) := by
    cases hfL : languages.find? (fun p => p.1 == code) with
    | none =>
      rw [List.find?_eq_none] at hfL ⊢
      intro x hx
      exact hfL x (hperm.mem_iff.mp hx)
    | some p =>
      have hpmem : p ∈ languages := List.mem_of_find?_eq_some hfL
      have hpc := List.find?_some hfL
      have hsome : (order.find? (fun p => p.1 == code)).isSome := by
        rw [List.find?_isSome]
        exact ⟨p, hperm.mem_iff.mpr hpmem, hpc⟩
      obtain ⟨q, hq⟩ := Option.isSome_iff_exists.mp hsome
      have hqmem : q ∈ languages := hperm.mem_iff.mp (List.mem_of_find?_eq_some hq)
      have hq1 : q.1 = code := by simpa using List.find?_some hq
      have hp1 : p.1 = code := by simpa using hpc
      rw [hq, fst_inj_of_nodup hnd hqmem hpmem (hq1.trans hp1.symm)]
  rw [hfind]

/-- C2 witness: a concrete permuted completion order over two locales,
evaluated at the pair `("A", "l1")`. -/
theorem C2_par_seq_agree_witness :
    ([(("l2" : String), ("L2" : String)), ("l1", "L1")]).Perm [("l1", "L1"), ("l2", "L2")] ∧
    (([(("l1" : String), ("L1" : String)), ("l2", "L2")].map Prod.fst).Nodup) ∧
    lookupLoc (localizePar collabFail [("A", { localizations := none, extra := [] })]
        [("l2", "L2"), ("l1", "L1")] [("A", { localizations := none, extra := [] })]) "A" "l1" =
      lookupLoc (localizeSeq collabFail [("l1", "L1"), ("l2", "L2")]
        [("A", { localizations := none, extra := [] })]) "A" "l1" :=
  ⟨by decide, by decide,
    C2_par_seq_agree collabFail [("l1", "L1"), ("l2", "L2")] [("l2", "L2"), ("l1", "L1")]
      [("A", { localizations := none, extra := [] })] (by decide) (by decide) "A" "l1"⟩

/-- C6: if every collaborator call fails, then for every locale of the
table the pipeline's translations dict maps every pending key to its own
source text, and after the sequential run's merge every pending key of
every locale carries the localization `{state: "translated", value: key}`
for that locale: no pending key is left unlocalized and no key receives
the text of a different key. -/
theorem C6_fallback_safety (collab : List String → String → Option String)
    (languages : List (String × String)) (cat : Catalog)
    (hfail : ∀ b l, collab b l = none) (hnd : (languages.map Prod.fst).Nodup) :
    ∀ p ∈ languages, ∀ k ∈ pendingKeys cat p.1,
      dictGet? (translate_language collab cat p.1 p.2) k = some k ∧
      lookupLoc (localizeSeq collab languages cat) k p.1 =
        some ⟨⟨"translated", k⟩⟩ := by
  intro p hp k hk
  constructor
  · exact translate_language_fail_get collab cat p.1 p.2 k hfail hk
  · rw [localizeSeq_lookup_char collab languages cat hnd k p.1]
    have hsome : (languages.find? (fun r => r.1 == p.1)).isSome := by
      rw [List.find?_isSome]
      exact ⟨p, hp, by simp⟩
    obtain ⟨q, hq⟩ := Option.isSome_iff_exists.mp hsome
    have hqmem := List.mem_of_find?_eq_some hq
    have hq1 : q.1 = p.1 := by simpa using List.find?_some hq
    have hqp : q = p := fst_inj_of_nodup hnd hqmem hp hq1
    rw [hq, hqp]
    have hl : lastVal? (translate_language collab cat p.1 p.2) k = some k :=
      lastVal?_diag k _ (translate_language_diag collab cat p.1 p.2 hfail)
        (translate_language_covers collab cat p.1 p.2 k hk)
    have hks : ((dictGet? cat k).isSome) = true :=
      (mem_keys_iff_isSome_dictGet? cat k).mp (pendingKeys_mem_keys cat p.1 k hk)
    simp only [hl]
    rw [if_pos hks]

/-- C6 witness: a single always-failing locale run over the catalog
`{"Hello": {}}`. -/
theorem C6_fallback_safety_witness :
    (([(("fr" : String), ("French" : String))].map Prod.fst).Nodup) ∧
    ("Hello" ∈ pendingKeys [("Hello", { localizations := none, extra := [] })] "fr") ∧
    (dictGet? (translate_language collabFail
        [("Hello", { localizations := none, extra := [] })] "fr" "French") "Hello" =
      some "Hello" ∧
    lookupLoc (localizeSeq collabFail [("fr", "French")]
        [("Hello", { localizations := none, extra := [] })]) "Hello" "fr" =
      some ⟨⟨"translated", "Hello"⟩⟩) :=
  ⟨by decide, by decide,
    C6_fallback_safety collabFail [("fr", "French")]
      [("Hello", { localizations := none, extra := [] })] (fun _ _ => rfl) (by decide)
      ("fr", "French") (by decide) "Hello" (by decide)⟩

theorem mergeGo_pending_empty (F : Catalog → String × String → List (String × String)) :
    ∀ (L : List (String × String)) (c : Catalog), (L.map Prod.fst).Nodup →
      (∀ (c2 : Catalog) (p : String × String), p ∈ L →
        ∀ k ∈ pendingKeys c2 p.1, k ∈ (F c2 p).map Prod.fst) →
      ∀ p ∈ L, pendingKeys (mergeGo F L c) p.1 = [] := by
  intro L
  induction L with
  | nil => intro c _ _ p hp; cases hp
  | cons q rest ih =>
    intro c hnd hcov p hp
    rw [List.map_cons, List.nodup_cons] at hnd
    show pendingKeys (mergeGo F rest (applyTranslations c q.1 (F c q))) p.1 = []
    rcases List.mem_cons.mp hp with rfl | hp2
    · have hne : ∀ r ∈ rest, r.1 ≠ p.1 := by
        intro r hr he
        have : p.1 ∈ rest.map Prod.fst := by
          rw [← he]
          exact List.mem_map_of_mem Prod.fst hr
        exact hnd.1 this
      rw [mergeGo_pending_ne F p.1 rest _ hne,
        pendingKeys_applyTranslations_self p.1 (F c p) c]
      rw [List.filter_eq_nil_iff]
      intro a ha
      simp [any_beq_of_mem_keys _ _ (hcov c p (List.mem_cons_self _ _) a ha)]
    · exact ih _ hnd.2 (fun c2 r hr => hcov c2 r (List.mem_cons_of_mem _ hr)) p hp2

theorem mergeGo_noop (F : Catalog → String × String → List (String × String)) :
    ∀ (L : List (String × String)) (c : Catalog),
      (∀ p ∈ L, F c p = []) → mergeGo F L c = c := by
  intro L
  induction L with
  | nil => intro c _; rfl
  | cons q rest ih =>
    intro c h
    show mergeGo F rest (applyTranslations c q.1 (F c q)) = c
    rw [h q (List.mem_cons_self _ _)]
    exact ih c (fun r hr => h r (List.mem_cons_of_mem _ hr))

/-- C7: running the pipeline a second time over the catalog produced by
a first (sequential) run changes nothing: for every locale of the table
the Diff Engine finds no pending key in the output catalog, so every
second-run pipeline returns an empty translations dict, its merge is
empty, and the final catalog equals its input — in sequential mode and
in parallel mode under any completion order, for any second-run
collaborator. -/
theorem C7_idempotent_rerun (collab collab2 : List String → String → Option String)
    (languages : List (String × String)) (cat : Catalog)
    (hnd : (languages.map Prod.fst).Nodup) :
    (∀ p ∈ languages, pendingKeys (localizeSeq collab languages cat) p.1 = []) ∧
    localizeSeq collab2 languages (localizeSeq collab languages cat) =
      localizeSeq collab languages cat ∧
    (∀ order, order.Perm languages →
      localizePar collab2 (localizeSeq collab languages cat) order
        (localizeSeq collab languages cat) = localizeSeq collab languages cat) := by
  have hdone : ∀ p ∈ languages, pendingKeys (localizeSeq collab languages cat) p.1 = [] := by
    apply mergeGo_pending_empty _ languages cat hnd
    intro c2 p _ k hk
    exact translate_language_covers collab c2 p.1 p.2 k hk
  refine ⟨hdone, ?_, ?_⟩
  · apply mergeGo_noop
    intro p hp
    exact translate_language_nil collab2 _ p.1 p.2 (hdone p hp)
  · intro order hperm
    apply mergeGo_noop
    intro p hp
    exact translate_language_nil collab2 _ p.1 p.2 (hdone p (hperm.mem_iff.mp hp))

/-- C7 witness: one locale over the catalog `{"Hello": {}}`; the second
sequential run returns the first run's output unchanged. -/
theorem C7_idempotent_rerun_witness :
    (([(("fr" : String), ("French" : String))].map Prod.fst).Nodup) ∧
    localizeSeq collabFail [("fr", "French")]
        (localizeSeq collabFail [("fr", "French")]
          [("Hello", { localizations := none, extra := [] })]) =
      localizeSeq collabFail [("fr", "French")]
        [("Hello", { localizations := none, extra := [] })] :=
  ⟨by decide,
    (C7_idempotent_rerun collabFail collabFail [("fr", "French")]
      [("Hello", { localizations := none, extra := [] })] (by decide)).2.1⟩

/-- C8: the merge step touches only `localizations[lang_code]` of the
keys present in the translations dict, always writing state
`"translated"`: the key sequence of the catalog is unchanged, an entry
whose key is absent from the dict is byte-identical afterwards (in
particular a pre-existing localization for the target locale on a key
the Diff Engine excluded), and for present keys all other entry fields
and all other locales' localizations are preserved while the target
locale receives `{state: "translated", value: <last written value>}`. -/
theorem C8_merge_frame (cat : Catalog) (code : String) (ts : List (String × String))
    (k : String) :
    ((applyTranslations cat code ts).map Prod.fst = cat.map Prod.fst) ∧
    (k ∉ ts.map Prod.fst → dictGet? (applyTranslations cat code ts) k = dictGet? cat k) ∧
    (∀ e, dictGet? cat k = some e →
      ∃ e2, dictGet? (applyTranslations cat code ts) k = some e2 ∧
        e2.extra = e.extra ∧
        (∀ c2, c2 ≠ code → dictGet? (locsOf e2) c2 = dictGet? (locsOf e) c2) ∧
        (∀ t, lastVal? ts k = some t →
          dictGet? (locsOf e2) code = some ⟨⟨"translated", t⟩⟩)) := by
  refine ⟨keys_applyTranslations code ts cat, ?_, ?_⟩
  · intro h
    exact dictGet?_applyTranslations_not_mem cat code ts k h
  · intro e he
    refine ⟨entUpd code k e ts, ?_, extra_entUpd code k ts e, ?_, ?_⟩
    · rw [dictGet?_applyTranslations, he]
      rfl
    · intro c2 hc2
      exact lookup_entUpd_ne code k c2 hc2 ts e
    · intro t ht
      rw [lookup_entUpd_code, ht]

/-- Concrete catalog for the merge-frame witness: `Hello` is pending,
`Bye` already holds a French localization and an extra field. -/
def exCatalog : Catalog :=
  [("Hello", { localizations := none, extra := [("extractionState", "manual")] }),
   ("Bye", { localizations := some [("fr", ⟨⟨"translated", "Au revoir"⟩⟩)], extra := [] })]

/-- Concrete translations dict for the merge-frame witness. -/
def exTs : List (String × String) := [("Hello", "Bonjour")]

/-- C8 witness: merging `{"Hello": "Bonjour"}` for `fr` leaves the entry
of the untouched key `Bye` byte-identical. -/
theorem C8_merge_frame_witness :
    ("Bye" ∉ exTs.map Prod.fst) ∧
    dictGet? (applyTranslations exCatalog "fr" exTs) "Bye" = dictGet? exCatalog "Bye" :=
  ⟨by decide, (C8_merge_frame exCatalog "fr" exTs "Bye").2.1 (by decide)⟩

/-- C9 counterexample: with a present credential, an existing input file
whose catalog lacks the top-level `strings` field, and a `y`
confirmation, `main` does not exit with a non-zero code: it finishes
normally (process exit status 0), printing the error line and the
next-steps text, with no output file written. -/
theorem C9_missing_strings_cex :
    pyMain collabFail [("fr", "French")] [("fr", "French")]
        { api_key := some "k", input_file := some { strings := none }, confirm := "y" } =
      RunResult.finished none ∧
    ∀ n : Nat, pyMain collabFail [("fr", "French")] [("fr", "French")]
        { api_key := some "k", input_file := some { strings := none }, confirm := "y" } ≠
      RunResult.exited n := by
  have h : pyMain collabFail [("fr", "French")] [("fr", "French")]
      { api_key := some "k", input_file := some { strings := none }, confirm := "y" } =
      RunResult.finished none := by decide
  refine ⟨h, ?_⟩
  intro n hn
  rw [h] at hn
  exact RunResult.noConfusion hn

/-- C9 amended: if the loaded catalog lacks the top-level `strings`
field, `localize_xcstrings` prints a message and returns before any
pipeline starts (the collaborator is never consulted) and before any
output file is written; however the process does not exit with a
non-zero code — `main` continues past the call and terminates normally
with exit status 0. -/
theorem C9_missing_strings_amended (collab : List String → String → Option String)
    (languages order : List (String × String)) (key confirm : String) (raw : RawFile)
    (hr : raw.strings = none) (hc : pyStrip (pyLower confirm) = "y") :
    pyMain collab languages order
        { api_key := some key, input_file := some raw, confirm := confirm } =
      RunResult.finished none := by
  show (if pyStrip (pyLower confirm) ≠ "y" then RunResult.exited 0
    else RunResult.finished (localize_xcstrings collab languages order raw true)) = _
  rw [if_neg (fun hne => hne hc)]
  show RunResult.finished (localize_xcstrings collab languages order raw true) = _
  unfold localize_xcstrings
  rw [hr]

/-- C9 witness: the concrete environment of the counterexample,
routed through the amended theorem. -/
theorem C9_missing_strings_amended_witness :
    (({ strings := none } : RawFile).strings = none) ∧
    pyStrip (pyLower "y") = "y" ∧
    pyMain collabFail [("fr", "French")] [("fr", "French")]
        { api_key := some "k", input_file := some { strings := none }, confirm := "y" } =
      RunResult.finished none :=
  ⟨rfl, by decide,
    C9_missing_strings_amended collabFail [("fr", "French")] [("fr", "French")] "k" "y"
      { strings := none } rfl (by decide)⟩
